import Mathlib

/-!
Verification of `prep-json.py`: a command-line utility that reads a
line-delimited JSON file and writes the decoded records as a single
pretty-printed JSON array.

The script itself is `src/prep-json.py`.  Its JSON I/O is delegated to the
Python standard library (`json.loads` semantics for decoding a line,
`json.dump(obj, f, indent=4)` for encoding) and to the `jsonlines` package
for line-by-line reading; those parts are modelled here from the
specification.  Numbers are modelled as integers: floating-point literals
are outside the model.  Lone-surrogate escape sequences, which a Lean
`Char` cannot represent, are rejected by the modelled decoder.
-/

/-- A JSON value.  Object fields keep insertion order, as Python dicts do. -/
inductive Json where
  | null : Json
  | bool (b : Bool) : Json
  | num (n : Int) : Json
  | str (s : String) : Json
  | arr (xs : List Json) : Json
  | obj (fs : List (String × Json)) : Json

/-- JSON whitespace characters (space, tab, newline, carriage return). -/
def wsChar (c : Char) : Bool :=
  decide (c = ' ' ∨ c = '\t' ∨ c = '\n' ∨ c = '\r')

/-- Drop leading JSON whitespace. -/
def skipWs : List Char → List Char
  | [] => []
  | c :: cs => if wsChar c then skipWs cs else c :: cs

/-- Value of one hexadecimal digit, upper or lower case. -/
def ofHexDigit (c : Char) : Option Nat :=
  if 48 ≤ c.toNat ∧ c.toNat ≤ 57 then some (c.toNat - 48)
  else if 97 ≤ c.toNat ∧ c.toNat ≤ 102 then some (c.toNat - 87)
  else if 65 ≤ c.toNat ∧ c.toNat ≤ 70 then some (c.toNat - 55)
  else none

/-- Value of a four-hex-digit escape body. -/
def hex4val (h1 h2 h3 h4 : Char) : Option Nat :=
  match ofHexDigit h1, ofHexDigit h2, ofHexDigit h3, ofHexDigit h4 with
  | some a, some b, some c, some d => some (((a * 16 + b) * 16 + c) * 16 + d)
  | _, _, _, _ => none

/-- Prepend a character to the string part of a string-parser result. -/
def consStr (c : Char) : Option (List Char × List Char) → Option (List Char × List Char)
  | some (cs, r) => some (c :: cs, r)
  | none => none

/-- Modelled from the spec: the body of a JSON string after the opening
quote, per Python `json.loads` (strict mode): literal characters from
code point 32 up, the short escapes, and four-digit escapes with
surrogate pairs combined.  Fuel bounds the recursion; any fuel of at
least the input length is enough. -/
def parseStringBody : Nat → List Char → Option (List Char × List Char)
  | 0, _ => none
  | _ + 1, [] => none
  | fuel + 1, c :: rest =>
    if c = '"' then some ([], rest)
    else if c = '\\' then
      match rest with
      | [] => none
      | e :: rest2 =>
        if e = '"' then consStr '"' (parseStringBody fuel rest2)
        else if e = '\\' then consStr '\\' (parseStringBody fuel rest2)
        else if e = '/' then consStr '/' (parseStringBody fuel rest2)
        else if e = 'b' then consStr (Char.ofNat 8) (parseStringBody fuel rest2)
        else if e = 'f' then consStr (Char.ofNat 12) (parseStringBody fuel rest2)
        else if e = 'n' then consStr '\n' (parseStringBody fuel rest2)
        else if e = 'r' then consStr '\r' (parseStringBody fuel rest2)
        else if e = 't' then consStr '\t' (parseStringBody fuel rest2)
        else if e = 'u' then
          match rest2 with
          | h1 :: h2 :: h3 :: h4 :: rest3 =>
            match hex4val h1 h2 h3 h4 with
            | none => none
            | some n =>
              if 55296 ≤ n ∧ n < 56320 then
                match rest3 with
                | '\\' :: 'u' :: g1 :: g2 :: g3 :: g4 :: rest4 =>
                  match hex4val g1 g2 g3 g4 with
                  | none => none
                  | some m =>
                    if 56320 ≤ m ∧ m < 57344 then
                      consStr (Char.ofNat (65536 + (n - 55296) * 1024 + (m - 56320)))
                        (parseStringBody fuel rest4)
                    else none
                | _ => none
              else if 56320 ≤ n ∧ n < 57344 then none
              else consStr (Char.ofNat n) (parseStringBody fuel rest3)
          | _ => none
        else none
    else if 32 ≤ c.toNat then consStr c (parseStringBody fuel rest)
    else none

/-- Take the maximal run of decimal digits, as digit values. -/
def takeDigits : List Char → List Nat × List Char
  | [] => ([], [])
  | c :: cs =>
    if 48 ≤ c.toNat ∧ c.toNat ≤ 57 then
      ((c.toNat - 48) :: (takeDigits cs).1, (takeDigits cs).2)
    else ([], c :: cs)

/-- Numeric value of a big-endian digit list. -/
def digitsVal (ds : List Nat) : Nat := ds.foldl (fun a d => 10 * a + d) 0

/-- Whether a character list starts with a decimal digit. -/
def digitHead : List Char → Bool
  | [] => false
  | c :: _ => decide (48 ≤ c.toNat ∧ c.toNat ≤ 57)

/-- Modelled from the spec: an unsigned JSON integer literal, per the
`json` number grammar restricted to integers (a leading zero is only the
number zero itself). -/
def parseNatNum : List Char → Option (Nat × List Char)
  | [] => none
  | c :: cs =>
    if 48 ≤ c.toNat ∧ c.toNat ≤ 57 then
      if c.toNat = 48 ∧ digitHead cs then none
      else some (digitsVal ((c.toNat - 48) :: (takeDigits cs).1), (takeDigits cs).2)
    else none

/-- Insert a field into an ordered field list with Python dict semantics:
an existing key keeps its position and takes the new value, a new key is
appended at the end. -/
def insertKey : List (String × Json) → String → Json → List (String × Json)
  | [], k, v => [(k, v)]
  | (k1, v1) :: rest, k, v =>
    if k1 = k then (k1, v) :: rest else (k1, v1) :: insertKey rest k v

mutual

/-- Modelled from the spec: one JSON value, per Python `json.loads`
restricted to integer numbers.  Leading whitespace is skipped; the
unconsumed suffix is returned.  Fuel bounds the nesting depth. -/
def parseValue : Nat → List Char → Option (Json × List Char)
  | 0, _ => none
  | fuel + 1, input =>
    match skipWs input with
    | [] => none
    | c :: rest =>
      if c = 'n' then
        match rest with
        | 'u' :: 'l' :: 'l' :: r => some (.null, r)
        | _ => none
      else if c = 't' then
        match rest with
        | 'r' :: 'u' :: 'e' :: r => some (.bool true, r)
        | _ => none
      else if c = 'f' then
        match rest with
        | 'a' :: 'l' :: 's' :: 'e' :: r => some (.bool false, r)
        | _ => none
      else if c = '"' then
        match parseStringBody rest.length rest with
        | some (cs, r) => some (.str (String.mk cs), r)
        | none => none
      else if c = '[' then
        match skipWs rest with
        | [] => none
        | c2 :: rest2 =>
          if c2 = ']' then some (.arr [], rest2)
          else
            match parseElems fuel [] (c2 :: rest2) with
            | some (xs, r) => some (.arr xs, r)
            | none => none
      else if c = '\x7b' then
        match skipWs rest with
        | [] => none
        | c2 :: rest2 =>
          if c2 = '\x7d' then some (.obj [], rest2)
          else
            match parseMembers fuel [] (c2 :: rest2) with
            | some (fs, r) => some (.obj fs, r)
            | none => none
      else if c = '-' then
        match parseNatNum rest with
        | some (n, r) => some (.num (-(n : Int)), r)
        | none => none
      else
        match parseNatNum (c :: rest) with
        | some (n, r) => some (.num ((n : Int)), r)
        | none => none

/-- Modelled from the spec: the elements of a non-empty JSON array after
the opening bracket, accumulating in order. -/
def parseElems : Nat → List Json → List Char → Option (List Json × List Char)
  | 0, _, _ => none
  | fuel + 1, acc, input =>
    match parseValue fuel input with
    | none => none
    | some (v, rest) =>
      match skipWs rest with
      | [] => none
      | c :: rest2 =>
        if c = ',' then parseElems fuel (acc ++ [v]) rest2
        else if c = ']' then some (acc ++ [v], rest2)
        else none

/-- Modelled from the spec: the members of a non-empty JSON object after
the opening brace, built with Python dict insertion semantics. -/
def parseMembers : Nat → List (String × Json) → List Char → Option (List (String × Json) × List Char)
  | 0, _, _ => none
  | fuel + 1, acc, input =>
    match skipWs input with
    | [] => none
    | c :: rest =>
      if c = '"' then
        match parseStringBody rest.length rest with
        | none => none
        | some (cs, rest2) =>
          match skipWs rest2 with
          | [] => none
          | c2 :: rest3 =>
            if c2 = ':' then
              match parseValue fuel rest3 with
              | none => none
              | some (v, rest4) =>
                match skipWs rest4 with
                | [] => none
                | c3 :: rest5 =>
                  if c3 = ',' then parseMembers fuel (insertKey acc (String.mk cs) v) rest5
                  else if c3 = '\x7d' then some (insertKey acc (String.mk cs) v, rest5)
                  else none
            else none
      else none

end

/-- Modelled from the spec: decode a whole document with `json.loads`
semantics: one value, with surrounding whitespace allowed and nothing
else after it.  The fuel `length + 1` is enough for any input, since
every nesting level consumes at least one character. -/
def decodeJson (s : String) : Option Json :=
  match parseValue (s.data.length + 1) s.data with
  | some (v, rest) => if skipWs rest = [] then some v else none
  | none => none

/-- Lower-case hexadecimal digit character for a value below 16. -/
def hexDig (d : Nat) : Char :=
  if d < 10 then Char.ofNat (48 + d) else Char.ofNat (87 + d)

/-- Four lower-case hex digits of a value below 65536. -/
def hex4 (n : Nat) : List Char :=
  [hexDig (n / 4096 % 16), hexDig (n / 256 % 16), hexDig (n / 16 % 16), hexDig (n % 16)]

/-- Modelled from the spec: how `json.dump` (with its default
`ensure_ascii=True`) writes one character of a string: quote, backslash
and the five short escapes; printable ASCII literally; everything else as
four-digit escapes, with astral characters as a surrogate pair. -/
def escChar (c : Char) : List Char :=
  if c = '"' then ['\\', '"']
  else if c = '\\' then ['\\', '\\']
  else if c = Char.ofNat 8 then ['\\', 'b']
  else if c = Char.ofNat 9 then ['\\', 't']
  else if c = Char.ofNat 10 then ['\\', 'n']
  else if c = Char.ofNat 12 then ['\\', 'f']
  else if c = Char.ofNat 13 then ['\\', 'r']
  else if 32 ≤ c.toNat ∧ c.toNat ≤ 126 then [c]
  else if c.toNat < 65536 then '\\' :: 'u' :: hex4 c.toNat
  else ('\\' :: 'u' :: hex4 (55296 + (c.toNat - 65536) / 1024)) ++
       ('\\' :: 'u' :: hex4 (56320 + (c.toNat - 65536) % 1024))

/-- Escape every character of a string body. -/
def escList : List Char → List Char
  | [] => []
  | c :: cs => escChar c ++ escList cs

/-- A JSON string literal as `json.dump` writes it. -/
def dumpStr (s : String) : List Char :=
  '"' :: (escList s.data ++ ['"'])

/-- Decimal digit character for a value below 10. -/
def digitCh (d : Nat) : Char := Char.ofNat (48 + d)

/-- Big-endian decimal digits of `n`, empty for zero; any fuel of at
least `n` is enough. -/
def natCharsAux : Nat → Nat → List Char
  | 0, _ => []
  | fuel + 1, n =>
    if n = 0 then [] else natCharsAux fuel (n / 10) ++ [digitCh (n % 10)]

/-- Decimal representation of a natural number. -/
def natChars (n : Nat) : List Char :=
  if n = 0 then ['0'] else natCharsAux n n

/-- Decimal representation of an integer, as Python `repr` writes it. -/
def dumpInt (n : Int) : List Char :=
  if n < 0 then '-' :: natChars n.natAbs else natChars n.natAbs

/-- A newline followed by the 4-space-per-level indentation `json.dump`
uses with `indent=4`. -/
def nlIndent (lvl : Nat) : List Char :=
  '\n' :: List.replicate (4 * lvl) ' '

mutual

/-- Modelled from the spec: the serialization `json.dump(v, f, indent=4)`
writes, at nesting level `lvl`. -/
def dumpVal : Nat → Json → List Char
  | _, .null => ['n', 'u', 'l', 'l']
  | _, .bool true => ['t', 'r', 'u', 'e']
  | _, .bool false => ['f', 'a', 'l', 's', 'e']
  | _, .num n => dumpInt n
  | _, .str s => dumpStr s
  | _, .arr [] => ['[', ']']
  | lvl, .arr (x :: xs) =>
    '[' :: (nlIndent (lvl + 1) ++ dumpVal (lvl + 1) x ++ dumpElemsRest (lvl + 1) xs ++
      nlIndent lvl ++ [']'])
  | _, .obj [] => ['\x7b', '\x7d']
  | lvl, .obj (f :: fs) =>
    '\x7b' :: (nlIndent (lvl + 1) ++ dumpMember (lvl + 1) f ++ dumpMembersRest (lvl + 1) fs ++
      nlIndent lvl ++ ['\x7d'])

/-- Remaining array elements, each preceded by a comma and fresh-line
indentation. -/
def dumpElemsRest : Nat → List Json → List Char
  | _, [] => []
  | lvl, x :: xs => ',' :: (nlIndent lvl ++ dumpVal lvl x ++ dumpElemsRest lvl xs)

/-- One object member: key, colon-space, value. -/
def dumpMember : Nat → String × Json → List Char
  | lvl, (k, v) => dumpStr k ++ (':' :: ' ' :: dumpVal lvl v)

/-- Remaining object members, each preceded by a comma and fresh-line
indentation. -/
def dumpMembersRest : Nat → List (String × Json) → List Char
  | _, [] => []
  | lvl, f :: fs => ',' :: (nlIndent lvl ++ dumpMember lvl f ++ dumpMembersRest lvl fs)

end

/-- The full document `json.dump(v, f, indent=4)` writes. -/
def dumps (v : Json) : String := String.mk (dumpVal 0 v)

/-- A line is blank when it contains only whitespace. -/
def isBlank (s : String) : Bool := s.data.all wsChar

/-- Modelled from the spec: the `jsonlines` reader loop of
`prep-json.py` lines 14-17: iterate the input lines in order, skip blank
lines, decode every other line as one JSON value and append it; a line
that does not decode raises a parse error. -/
def readRecords : List String → Except String (List Json)
  | [] => .ok []
  | l :: ls =>
    if isBlank l then readRecords ls
    else
      match decodeJson l with
      | some v => (readRecords ls).map (fun objs => v :: objs)
      | none => .error "ParseError"

/-- Observable outcome of one run: exit status, lines printed to standard
output, and the content written to the output file (`none` when the
output file is never opened). -/
structure RunResult where
  exitCode : Nat
  stdout : List String
  output : Option String

/-- The usage message printed on a wrong argument count. -/
def usageMsg : String := "Usage: python prep-json.py <input_file> <output_file>"

/-- The confirmation message printed on success. -/
def successMsg (inputFile outputFile : String) : String :=
  "Combined JSON objects from " ++ inputFile ++ " into " ++ outputFile

/-- The whole program `prep-json.py`: `argv` is `sys.argv` including the
script name; `input` is the input file as a list of lines, or `none` when
the file cannot be read.  A wrong argument count prints the usage message
and exits with status 1 before any file I/O; an unreadable input or an
undecodable line terminates with an uncaught exception (exit status 1)
before the output file is opened; otherwise the decoded records are
written as one indented JSON array and the confirmation is printed. -/
def runProg (argv : List String) (input : Option (List String)) : RunResult :=
  if argv.length ≠ 3 then ⟨1, [usageMsg], none⟩
  else
    match input with
    | none => ⟨1, [], none⟩
    | some lines =>
      match readRecords lines with
      | .error _ => ⟨1, [], none⟩
      | .ok objs =>
        ⟨0, [successMsg (argv.getD 1 "") (argv.getD 2 "")], some (dumps (.arr objs))⟩

/-- No two fields of a field list share a key. -/
def noDupKeys : List (String × Json) → Bool
  | [] => true
  | (k, _) :: fs => !(fs.any (fun p => p.1 == k)) && noDupKeys fs

mutual

/-- Every object inside the value has pairwise distinct keys.  Values
produced by the decoder always satisfy this, because Python dict
insertion collapses duplicate keys. -/
def keysOk : Json → Bool
  | .null => true
  | .bool _ => true
  | .num _ => true
  | .str _ => true
  | .arr xs => keysOkL xs
  | .obj fs => noDupKeys fs && keysOkF fs

/-- `keysOk` for every element of a list. -/
def keysOkL : List Json → Bool
  | [] => true
  | x :: xs => keysOk x && keysOkL xs

/-- `keysOk` for every field value of a field list. -/
def keysOkF : List (String × Json) → Bool
  | [] => true
  | (_, v) :: fs => keysOk v && keysOkF fs

end

mutual

/-- Parser fuel needed for a value: one more than its nesting depth. -/
def need : Json → Nat
  | .arr xs => 1 + needL xs
  | .obj fs => 1 + needM fs
  | _ => 1

/-- Fuel needed by `parseElems` for these remaining elements. -/
def needL : List Json → Nat
  | [] => 0
  | x :: xs => 1 + max (need x) (needL xs)

/-- Fuel needed by `parseMembers` for these remaining members. -/
def needM : List (String × Json) → Nat
  | [] => 0
  | (_, v) :: fs => 1 + max (need v) (needM fs)

end

example : decodeJson "1" = some (.num 1) := rfl
example : decodeJson " [1, 20]" = some (.arr [.num 1, .num 20]) := rfl
example : decodeJson "-37" = some (.num (-37)) := rfl
example : decodeJson "01" = none := rfl
example : decodeJson "\"a\"" = some (.str "a") := rfl
example : decodeJson "null" = some .null := rfl
example : readRecords ["1", "", "true"] = .ok [.num 1, .bool true] := rfl
example : readRecords ["1", "[", "true"] = .error "ParseError" := rfl

/-! ## Character facts -/

theorem toNat_ofNat_valid (n : Nat) (h : n.isValidChar) : (Char.ofNat n).toNat = n := by
  simp only [Char.ofNat, h, dif_pos, Char.ofNatAux, Char.toNat]
  rfl

theorem char_toNat_inj (a b : Char) (h : a.toNat = b.toNat) : a = b :=
  Char.ext (UInt32.ext h)

theorem char_ne_of_toNat_ne (a b : Char) (h : a.toNat ≠ b.toNat) : a ≠ b :=
  fun e => h (congrArg Char.toNat e)

theorem char_toNat_lt (c : Char) : c.toNat < 1114112 := by
  have h := c.valid
  simp only [UInt32.isValidChar, Nat.isValidChar] at h
  simp only [Char.toNat]
  omega

theorem wsChar_eq_false (c : Char)
    (h : c.toNat ≠ 32 ∧ c.toNat ≠ 9 ∧ c.toNat ≠ 10 ∧ c.toNat ≠ 13) : wsChar c = false := by
  have h1 : c ≠ ' ' := char_ne_of_toNat_ne c ' ' h.1
  have h2 : c ≠ '\t' := char_ne_of_toNat_ne c '\t' h.2.1
  have h3 : c ≠ '\n' := char_ne_of_toNat_ne c '\n' h.2.2.1
  have h4 : c ≠ '\r' := char_ne_of_toNat_ne c '\r' h.2.2.2
  simp [wsChar, h1, h2, h3, h4]

/-! ## Whitespace skipping -/

theorem skipWs_cons_not_ws (c : Char) (t : List Char) (h : wsChar c = false) :
    skipWs (c :: t) = c :: t := by
  simp [skipWs, h]

theorem skipWs_ws_prefix :
    ∀ pre t, (∀ c ∈ pre, wsChar c = true) → skipWs (pre ++ t) = skipWs t := by
  intro pre
  induction pre with
  | nil => intro t _; rfl
  | cons c cs ih =>
    intro t h
    have hc : wsChar c = true := h c (List.mem_cons_self c cs)
    simp only [List.cons_append, skipWs, hc, if_pos]
    exact ih t (fun d hd => h d (List.mem_cons_of_mem c hd))

theorem nlIndent_ws (lvl : Nat) : ∀ c ∈ nlIndent lvl, wsChar c = true := by
  intro c hc
  simp only [nlIndent, List.mem_cons] at hc
  rcases hc with h | h
  · subst h; rfl
  · have := List.eq_of_mem_replicate h
    subst this; rfl

theorem skipWs_nlIndent (lvl : Nat) (t : List Char) :
    skipWs (nlIndent lvl ++ t) = skipWs t :=
  skipWs_ws_prefix (nlIndent lvl) t (nlIndent_ws lvl)

/-! ## Decimal digits -/

theorem digitCh_toNat (d : Nat) (h : d < 10) : (digitCh d).toNat = 48 + d := by
  have : (48 + d).isValidChar := by left; omega
  simpa [digitCh] using toNat_ofNat_valid (48 + d) this

theorem digitCh_is_digit (d : Nat) (h : d < 10) :
    48 ≤ (digitCh d).toNat ∧ (digitCh d).toNat ≤ 57 := by
  rw [digitCh_toNat d h]; omega

theorem takeDigits_no_digit (t : List Char) (h : digitHead t = false) :
    takeDigits t = ([], t) := by
  cases t with
  | nil => rfl
  | cons c cs =>
    simp only [digitHead, decide_eq_false_iff_not] at h
    simp [takeDigits, h]

theorem takeDigits_digits_append :
    ∀ ds t, (∀ c ∈ ds, 48 ≤ c.toNat ∧ c.toNat ≤ 57) → digitHead t = false →
      takeDigits (ds ++ t) = (ds.map (fun c => c.toNat - 48), t) := by
  intro ds
  induction ds with
  | nil => intro t _ ht; simpa using takeDigits_no_digit t ht
  | cons c cs ih =>
    intro t h ht
    have hc := h c (List.mem_cons_self c cs)
    have := ih t (fun d hd => h d (List.mem_cons_of_mem c hd)) ht
    simp [takeDigits, hc.1, hc.2, this]

theorem digitsVal_append (ds : List Nat) (d : Nat) :
    digitsVal (ds ++ [d]) = 10 * digitsVal ds + d := by
  simp [digitsVal, List.foldl_append]

theorem natCharsAux_zero (fuel : Nat) : natCharsAux fuel 0 = [] := by
  cases fuel <;> simp [natCharsAux]

theorem natCharsAux_digits :
    ∀ fuel n, ∀ c ∈ natCharsAux fuel n, 48 ≤ c.toNat ∧ c.toNat ≤ 57 := by
  intro fuel
  induction fuel with
  | zero => intro n c hc; simp [natCharsAux] at hc
  | succ fuel ih =>
    intro n c hc
    by_cases hn : n = 0
    · subst hn; simp [natCharsAux] at hc
    · simp only [natCharsAux, hn, if_neg, not_false_iff, List.mem_append, List.mem_singleton] at hc
      rcases hc with h | h
      · exact ih (n / 10) c h
      · subst h
        have : n % 10 < 10 := Nat.mod_lt n (by norm_num)
        exact digitCh_is_digit (n % 10) this

theorem natCharsAux_val :
    ∀ fuel n, n ≤ fuel →
      digitsVal ((natCharsAux fuel n).map (fun c => c.toNat - 48)) = n := by
  intro fuel
  induction fuel with
  | zero =>
    intro n h
    interval_cases n
    simp [natCharsAux, digitsVal]
  | succ fuel ih =>
    intro n h
    by_cases hn : n = 0
    · subst hn; simp [natCharsAux_zero, digitsVal]
    · have hlt : n / 10 ≤ fuel := by
        have := Nat.div_lt_self (Nat.pos_of_ne_zero hn) (by norm_num : 1 < 10)
        omega
      have hm : n % 10 < 10 := Nat.mod_lt n (by norm_num)
      simp only [natCharsAux, hn, if_neg, not_false_iff, List.map_append, List.map_cons,
        List.map_nil]
      rw [digitsVal_append, ih (n / 10) hlt, digitCh_toNat (n % 10) hm]
      omega

theorem natCharsAux_head :
    ∀ fuel n, 0 < n → n ≤ fuel →
      ∃ d t, natCharsAux fuel n = digitCh d :: t ∧ 0 < d ∧ d < 10 := by
  intro fuel
  induction fuel with
  | zero => intro n h1 h2; omega
  | succ fuel ih =>
    intro n h1 h2
    have hn : n ≠ 0 := by omega
    by_cases hq : n / 10 = 0
    · refine ⟨n % 10, [], ?_, ?_, ?_⟩
      · simp [natCharsAux, hn, hq, natCharsAux_zero]
      · have := Nat.div_add_mod n 10
        omega
      · exact Nat.mod_lt n (by norm_num)
    · have hlt : n / 10 ≤ fuel := by
        have := Nat.div_lt_self (Nat.pos_of_ne_zero hn) (by norm_num : 1 < 10)
        omega
      obtain ⟨d, t, heq, hd1, hd2⟩ := ih (n / 10) (Nat.pos_of_ne_zero hq) hlt
      exact ⟨d, t ++ [digitCh (n % 10)], by simp [natCharsAux, hn, heq], hd1, hd2⟩

theorem parseNatNum_natChars (n : Nat) (t : List Char) (h : digitHead t = false) :
    parseNatNum (natChars n ++ t) = some (n, t) := by
  by_cases hn : n = 0
  · subst hn
    have hnc : natChars 0 ++ t = '0' :: t := by simp [natChars]
    rw [hnc]
    have h0 : ('0' : Char).toNat = 48 := rfl
    simp only [parseNatNum]
    rw [if_pos (by rw [h0]; omega : 48 ≤ ('0' : Char).toNat ∧ ('0' : Char).toNat ≤ 57)]
    rw [if_neg (by rintro ⟨h1, h2⟩; rw [h] at h2; exact Bool.false_ne_true h2)]
    rw [takeDigits_no_digit t h]
    simp [digitsVal, h0]
  · obtain ⟨d, t', heq, hd1, hd2⟩ := natCharsAux_head n n (Nat.pos_of_ne_zero hn) le_rfl
    have hall := natCharsAux_digits n n
    rw [heq] at hall
    have hdc : (digitCh d).toNat = 48 + d := digitCh_toNat d hd2
    have ht' : ∀ c ∈ t', 48 ≤ c.toNat ∧ c.toNat ≤ 57 :=
      fun c hc => hall c (List.mem_cons_of_mem _ hc)
    have htd := takeDigits_digits_append t' t ht' h
    have hval : digitsVal (((digitCh d).toNat - 48) :: t'.map (fun c => c.toNat - 48)) = n := by
      have hv := natCharsAux_val n n le_rfl
      rw [heq] at hv
      simpa using hv
    simp only [natChars, hn, if_neg, not_false_iff, heq, List.cons_append, parseNatNum]
    rw [if_pos (by rw [hdc]; omega : 48 ≤ (digitCh d).toNat ∧ (digitCh d).toNat ≤ 57)]
    rw [if_neg (by rintro ⟨h1, _⟩; rw [hdc] at h1; omega)]
    rw [htd, hval]

/-! ## Hexadecimal digits -/

theorem ofHexDigit_hexDig (d : Nat) (h : d < 16) : ofHexDigit (hexDig d) = some d := by
  interval_cases d <;> decide

theorem hex4val_hex4 (n : Nat) (h : n < 65536) :
    hex4val (hexDig (n / 4096 % 16)) (hexDig (n / 256 % 16))
      (hexDig (n / 16 % 16)) (hexDig (n % 16)) = some n := by
  have h1 := ofHexDigit_hexDig (n / 4096 % 16) (Nat.mod_lt _ (by norm_num))
  have h2 := ofHexDigit_hexDig (n / 256 % 16) (Nat.mod_lt _ (by norm_num))
  have h3 := ofHexDigit_hexDig (n / 16 % 16) (Nat.mod_lt _ (by norm_num))
  have h4 := ofHexDigit_hexDig (n % 16) (Nat.mod_lt _ (by norm_num))
  simp only [hex4val, h1, h2, h3, h4]
  congr 1
  omega

/-! ## String escaping round-trip -/

/-- Parser step for an escaped surrogate pair. -/
theorem parseStringBody_u_pair (f n m : Nat) (X : List Char)
    (hn : 55296 ≤ n ∧ n < 56320) (hm : 56320 ≤ m ∧ m < 57344) :
    parseStringBody (f + 1)
      ('\\' :: 'u' :: hexDig (n / 4096 % 16) :: hexDig (n / 256 % 16) ::
       hexDig (n / 16 % 16) :: hexDig (n % 16) ::
       '\\' :: 'u' :: hexDig (m / 4096 % 16) :: hexDig (m / 256 % 16) ::
       hexDig (m / 16 % 16) :: hexDig (m % 16) :: X) =
    consStr (Char.ofNat (65536 + (n - 55296) * 1024 + (m - 56320))) (parseStringBody f X) := by
  simp [parseStringBody, hex4val_hex4 n (by omega), hex4val_hex4 m (by omega), hn, hm]


theorem parseStringBody_escList :
    ∀ cs : List Char, ∀ fuel rest, (escList cs).length < fuel →
      parseStringBody fuel (escList cs ++ ('"' :: rest)) = some (cs, rest) := by
  intro cs
  induction cs with
  | nil =>
    intro fuel rest h
    simp only [escList, List.length_nil, List.nil_append] at *
    obtain ⟨f, rfl⟩ : ∃ f, fuel = f + 1 := ⟨fuel - 1, by omega⟩
    simp [parseStringBody]
  | cons c cs ih =>
    intro fuel rest h
    have hlen : (escList (c :: cs)).length = (escChar c).length + (escList cs).length := by
      simp [escList]
    by_cases hq : c = '"'
    · subst hq
      have he : escChar '"' = ['\\', '"'] := by decide
      have hL : (escList cs).length + 2 < fuel := by rw [hlen, he] at h; simp at h; omega
      obtain ⟨f, rfl⟩ : ∃ f, fuel = f + 1 := ⟨fuel - 1, by omega⟩
      have hin : escList ('"' :: cs) ++ '"' :: rest =
          '\\' :: '"' :: (escList cs ++ '"' :: rest) := by simp [escList, he]
      rw [hin]
      simp only [parseStringBody]
      rw [ih f rest (by omega)]
      simp [consStr]
    · by_cases hb : c = '\\'
      · subst hb
        have he : escChar '\\' = ['\\', '\\'] := by decide
        have hL : (escList cs).length + 2 < fuel := by rw [hlen, he] at h; simp at h; omega
        obtain ⟨f, rfl⟩ : ∃ f, fuel = f + 1 := ⟨fuel - 1, by omega⟩
        have hin : escList ('\\' :: cs) ++ '"' :: rest =
            '\\' :: '\\' :: (escList cs ++ '"' :: rest) := by simp [escList, he]
        rw [hin]
        simp only [parseStringBody]
        rw [ih f rest (by omega)]
        simp [consStr]
      · by_cases h8 : c = Char.ofNat 8
        · subst h8
          have he : escChar (Char.ofNat 8) = ['\\', 'b'] := by decide
          have hL : (escList cs).length + 2 < fuel := by rw [hlen, he] at h; simp at h; omega
          obtain ⟨f, rfl⟩ : ∃ f, fuel = f + 1 := ⟨fuel - 1, by omega⟩
          have hin : escList (Char.ofNat 8 :: cs) ++ '"' :: rest =
              '\\' :: 'b' :: (escList cs ++ '"' :: rest) := by simp [escList, he]
          rw [hin]
          simp only [parseStringBody]
          rw [ih f rest (by omega)]
          simp [consStr]
        · by_cases h9 : c = Char.ofNat 9
          · subst h9
            have he : escChar (Char.ofNat 9) = ['\\', 't'] := by decide
            have hL : (escList cs).length + 2 < fuel := by
              rw [hlen, he] at h; simp at h; omega
            obtain ⟨f, rfl⟩ : ∃ f, fuel = f + 1 := ⟨fuel - 1, by omega⟩
            have hin : escList (Char.ofNat 9 :: cs) ++ '"' :: rest =
                '\\' :: 't' :: (escList cs ++ '"' :: rest) := by simp [escList, he]
            rw [hin]
            simp only [parseStringBody]
            rw [ih f rest (by omega)]
            have : Char.ofNat 9 = '\t' := by decide
            simp [consStr, this]
          · by_cases h10 : c = Char.ofNat 10
            · subst h10
              have he : escChar (Char.ofNat 10) = ['\\', 'n'] := by decide
              have hL : (escList cs).length + 2 < fuel := by
                rw [hlen, he] at h; simp at h; omega
              obtain ⟨f, rfl⟩ : ∃ f, fuel = f + 1 := ⟨fuel - 1, by omega⟩
              have hin : escList (Char.ofNat 10 :: cs) ++ '"' :: rest =
                  '\\' :: 'n' :: (escList cs ++ '"' :: rest) := by simp [escList, he]
              rw [hin]
              simp only [parseStringBody]
              rw [ih f rest (by omega)]
              have : Char.ofNat 10 = '\n' := by decide
              simp [consStr, this]
            · by_cases h12 : c = Char.ofNat 12
              · subst h12
                have he : escChar (Char.ofNat 12) = ['\\', 'f'] := by decide
                have hL : (escList cs).length + 2 < fuel := by
                  rw [hlen, he] at h; simp at h; omega
                obtain ⟨f, rfl⟩ : ∃ f, fuel = f + 1 := ⟨fuel - 1, by omega⟩
                have hin : escList (Char.ofNat 12 :: cs) ++ '"' :: rest =
                    '\\' :: 'f' :: (escList cs ++ '"' :: rest) := by simp [escList, he]
                rw [hin]
                simp only [parseStringBody]
                rw [ih f rest (by omega)]
                simp [consStr]
              · by_cases h13 : c = Char.ofNat 13
                · subst h13
                  have he : escChar (Char.ofNat 13) = ['\\', 'r'] := by decide
                  have hL : (escList cs).length + 2 < fuel := by
                    rw [hlen, he] at h; simp at h; omega
                  obtain ⟨f, rfl⟩ : ∃ f, fuel = f + 1 := ⟨fuel - 1, by omega⟩
                  have hin : escList (Char.ofNat 13 :: cs) ++ '"' :: rest =
                      '\\' :: 'r' :: (escList cs ++ '"' :: rest) := by simp [escList, he]
                  rw [hin]
                  simp only [parseStringBody]
                  rw [ih f rest (by omega)]
                  have : Char.ofNat 13 = '\r' := by decide
                  simp [consStr, this]
                · by_cases hpr : 32 ≤ c.toNat ∧ c.toNat ≤ 126
                  · have he : escChar c = [c] := by
                      simp [escChar, hq, hb, h8, h9, h10, h12, h13, hpr]
                    have hL : (escList cs).length + 1 < fuel := by
                      rw [hlen, he] at h; simp at h; omega
                    obtain ⟨f, rfl⟩ : ∃ f, fuel = f + 1 := ⟨fuel - 1, by omega⟩
                    have hin : escList (c :: cs) ++ '"' :: rest =
                        c :: (escList cs ++ '"' :: rest) := by simp [escList, he]
                    rw [hin]
                    simp only [parseStringBody]
                    rw [if_neg hq, if_neg hb, if_pos hpr.1]
                    rw [ih f rest (by omega)]
                    simp [consStr]
                  · by_cases hlt : c.toNat < 65536
                    · have he : escChar c =
                          '\\' :: 'u' :: hexDig (c.toNat / 4096 % 16) ::
                          hexDig (c.toNat / 256 % 16) :: hexDig (c.toNat / 16 % 16) ::
                          [hexDig (c.toNat % 16)] := by
                        simp [escChar, hq, hb, h8, h9, h10, h12, h13, hpr, hlt, hex4]
                      have hL : (escList cs).length + 6 < fuel := by
                        rw [hlen, he] at h; simp at h; omega
                      obtain ⟨f, rfl⟩ : ∃ f, fuel = f + 1 := ⟨fuel - 1, by omega⟩
                      have hin : escList (c :: cs) ++ '"' :: rest =
                          '\\' :: 'u' :: hexDig (c.toNat / 4096 % 16) ::
                          hexDig (c.toNat / 256 % 16) :: hexDig (c.toNat / 16 % 16) ::
                          hexDig (c.toNat % 16) :: (escList cs ++ '"' :: rest) := by
                        simp [escList, he]
                      have hval := c.valid
                      simp only [UInt32.isValidChar, Nat.isValidChar] at hval
                      have hvn : c.val.toNat = c.toNat := rfl
                      rw [hvn] at hval
                      have hns : ¬(55296 ≤ c.toNat ∧ c.toNat < 56320) := by omega
                      have hnl : ¬(56320 ≤ c.toNat ∧ c.toNat < 57344) := by omega
                      have hih := ih f rest (by omega)
                      rw [hin]
                      simp [parseStringBody, hex4val_hex4 c.toNat hlt, hns, hnl,
                        Char.ofNat_toNat, hih, consStr]
                    · have ht : c.toNat < 1114112 := char_toNat_lt c
                      have hnlt : ¬ c.toNat < 65536 := hlt
                      set q := (c.toNat - 65536) / 1024 with hqdef
                      set r := (c.toNat - 65536) % 1024 with hrdef
                      have hqlt : q < 1024 := by
                        rw [hqdef]; omega
                      have hrlt : r < 1024 := by
                        rw [hrdef]; omega
                      have he : escChar c =
                          '\\' :: 'u' :: hexDig ((55296 + q) / 4096 % 16) ::
                          hexDig ((55296 + q) / 256 % 16) :: hexDig ((55296 + q) / 16 % 16) ::
                          hexDig ((55296 + q) % 16) ::
                          '\\' :: 'u' :: hexDig ((56320 + r) / 4096 % 16) ::
                          hexDig ((56320 + r) / 256 % 16) :: hexDig ((56320 + r) / 16 % 16) ::
                          [hexDig ((56320 + r) % 16)] := by
                        simp [escChar, hq, hb, h8, h9, h10, h12, h13, hpr, hnlt, hex4]
                      have hL : (escList cs).length + 12 < fuel := by
                        rw [hlen, he] at h; simp at h; omega
                      obtain ⟨f, rfl⟩ : ∃ f, fuel = f + 1 := ⟨fuel - 1, by omega⟩
                      have hin : escList (c :: cs) ++ '"' :: rest =
                          '\\' :: 'u' :: hexDig ((55296 + q) / 4096 % 16) ::
                          hexDig ((55296 + q) / 256 % 16) :: hexDig ((55296 + q) / 16 % 16) ::
                          hexDig ((55296 + q) % 16) ::
                          '\\' :: 'u' :: hexDig ((56320 + r) / 4096 % 16) ::
                          hexDig ((56320 + r) / 256 % 16) :: hexDig ((56320 + r) / 16 % 16) ::
                          hexDig ((56320 + r) % 16) :: (escList cs ++ '"' :: rest) := by
                        simp [escList, he]
                      have hih := ih f rest (by omega)
                      have hhi : 55296 ≤ 55296 + q ∧ 55296 + q < 56320 := by omega
                      have hlo : 56320 ≤ 56320 + r ∧ 56320 + r < 57344 := by omega
                      have hc : Char.ofNat
                          (65536 + (55296 + q - 55296) * 1024 + (56320 + r - 56320)) = c := by
                        have he2 : 65536 + (55296 + q - 55296) * 1024 + (56320 + r - 56320) =
                            c.toNat := by omega
                        rw [he2, Char.ofNat_toNat]
                      rw [hin]
                      rw [parseStringBody_u_pair f (55296 + q) (56320 + r)
                        (escList cs ++ '"' :: rest) hhi hlo]
                      rw [hih, hc]
                      simp [consStr]

/-! ## Helpers for the main round-trip -/

theorem parseValue_ws (fuel : Nat) (pre t : List Char) (h : ∀ c ∈ pre, wsChar c = true) :
    parseValue fuel (pre ++ t) = parseValue fuel t := by
  cases fuel with
  | zero => rfl
  | succ f => simp only [parseValue, skipWs_ws_prefix pre t h]

theorem parseMembers_ws (fuel : Nat) (acc : List (String × Json)) (pre t : List Char)
    (h : ∀ c ∈ pre, wsChar c = true) :
    parseMembers fuel acc (pre ++ t) = parseMembers fuel acc t := by
  cases fuel with
  | zero => rfl
  | succ f => simp only [parseMembers, skipWs_ws_prefix pre t h]

theorem natChars_head (n : Nat) :
    ∃ d t, natChars n = digitCh d :: t ∧ d < 10 ∧ (n ≠ 0 → 0 < d) := by
  by_cases hn : n = 0
  · subst hn
    exact ⟨0, [], by simp [natChars]; rfl, by omega, by omega⟩
  · obtain ⟨d, t, heq, hd1, hd2⟩ := natCharsAux_head n n (Nat.pos_of_ne_zero hn) le_rfl
    exact ⟨d, t, by simp [natChars, hn, heq], hd2, fun _ => hd1⟩

theorem digitCh_ne (d : Nat) (hd : d < 10) (c : Char)
    (hc : c.toNat < 48 ∨ 57 < c.toNat) : digitCh d ≠ c := by
  apply char_ne_of_toNat_ne
  rw [digitCh_toNat d hd]
  omega

theorem digitCh_not_ws (d : Nat) (hd : d < 10) : wsChar (digitCh d) = false := by
  apply wsChar_eq_false
  rw [digitCh_toNat d hd]
  omega

theorem insertKey_not_mem :
    ∀ acc k v, (∀ p ∈ acc, p.1 ≠ k) → insertKey acc k v = acc ++ [(k, v)] := by
  intro acc
  induction acc with
  | nil => intro k v _; rfl
  | cons p ps ih =>
    intro k v h
    obtain ⟨k1, v1⟩ := p
    have h1 : k1 ≠ k := h (k1, v1) (List.mem_cons_self _ _)
    simp only [insertKey, if_neg h1, List.cons_append]
    rw [ih k v (fun q hq => h q (List.mem_cons_of_mem _ hq))]

theorem noDupKeys_cons (k : String) (v : Json) (fs : List (String × Json)) :
    noDupKeys ((k, v) :: fs) = true ↔ (∀ q ∈ fs, q.1 ≠ k) ∧ noDupKeys fs = true := by
  simp [noDupKeys, List.any_eq_true]

theorem need_pos (v : Json) : 1 ≤ need v := by
  cases v <;> simp [need]

theorem needL_cons (x : Json) (xs : List Json) :
    needL (x :: xs) = 1 + max (need x) (needL xs) := by
  simp [needL]

theorem needM_cons (k : String) (v : Json) (fs : List (String × Json)) :
    needM ((k, v) :: fs) = 1 + max (need v) (needM fs) := by
  simp [needM]

theorem digitHead_elemsRest (lvl lvl2 : Nat) (xs : List Json) (t : List Char) :
    digitHead (dumpElemsRest lvl xs ++ (nlIndent lvl2 ++ t)) = false := by
  cases xs with
  | nil => simp [dumpElemsRest, nlIndent, digitHead]
  | cons x xs => simp [dumpElemsRest, digitHead]

theorem digitHead_membersRest (lvl lvl2 : Nat) (fs : List (String × Json)) (t : List Char) :
    digitHead (dumpMembersRest lvl fs ++ (nlIndent lvl2 ++ t)) = false := by
  cases fs with
  | nil => simp [dumpMembersRest, nlIndent, digitHead]
  | cons f fs => simp [dumpMembersRest, digitHead]

theorem dumpVal_head (lvl : Nat) (v : Json) :
    ∃ c t, dumpVal lvl v = c :: t ∧ wsChar c = false ∧ c ≠ ']' ∧ c ≠ '\x7d' := by
  cases v with
  | null => exact ⟨'n', ['u', 'l', 'l'], by simp [dumpVal], by decide, by decide, by decide⟩
  | bool b =>
    cases b with
    | true => exact ⟨'t', ['r', 'u', 'e'], by simp [dumpVal], by decide, by decide, by decide⟩
    | false =>
      exact ⟨'f', ['a', 'l', 's', 'e'], by simp [dumpVal], by decide, by decide, by decide⟩
  | num n =>
    by_cases hn : n < 0
    · exact ⟨'-', natChars n.natAbs, by simp [dumpVal, dumpInt, hn], by decide, by decide,
        by decide⟩
    · obtain ⟨d, t, heq, hd, _⟩ := natChars_head n.natAbs
      refine ⟨digitCh d, t, ?_, digitCh_not_ws d hd, ?_, ?_⟩
      · simp [dumpVal, dumpInt, hn, heq]
      · exact digitCh_ne d hd ']' (by decide)
      · exact digitCh_ne d hd '\x7d' (by decide)
  | str s =>
    exact ⟨'"', escList s.data ++ ['"'], by simp [dumpVal, dumpStr], by decide, by decide,
      by decide⟩
  | arr xs =>
    cases xs with
    | nil => exact ⟨'[', [']'], by simp [dumpVal], by decide, by decide, by decide⟩
    | cons x xs =>
      exact ⟨'[', nlIndent (lvl + 1) ++ (dumpVal (lvl + 1) x ++ (dumpElemsRest (lvl + 1) xs ++
        (nlIndent lvl ++ [']']))), by simp [dumpVal], by decide, by decide, by decide⟩
  | obj fs =>
    cases fs with
    | nil => exact ⟨'\x7b', ['\x7d'], by simp [dumpVal], by decide, by decide, by decide⟩
    | cons f fs =>
      exact ⟨'\x7b', nlIndent (lvl + 1) ++ (dumpMember (lvl + 1) f ++
        (dumpMembersRest (lvl + 1) fs ++ (nlIndent lvl ++ ['\x7d']))),
        by simp [dumpVal], by decide, by decide, by decide⟩

/-! ## Main round-trip: parsing the printed document -/

theorem parse_dump_aux : ∀ fuel : Nat,
    (∀ v lvl rest, need v ≤ fuel → keysOk v = true → digitHead rest = false →
      parseValue fuel (dumpVal lvl v ++ rest) = some (v, rest)) ∧
    (∀ x xs lvl lvl2 acc pre rest, needL (x :: xs) ≤ fuel →
      keysOk x = true → keysOkL xs = true → (∀ c ∈ pre, wsChar c = true) →
      parseElems fuel acc
        (pre ++ (dumpVal lvl x ++ (dumpElemsRest lvl xs ++ (nlIndent lvl2 ++ (']' :: rest))))) =
        some (acc ++ x :: xs, rest)) ∧
    (∀ k v fs lvl lvl2 acc pre rest, needM ((k, v) :: fs) ≤ fuel →
      keysOk v = true → keysOkF fs = true → noDupKeys ((k, v) :: fs) = true →
      (∀ p ∈ acc, ∀ q ∈ (k, v) :: fs, p.1 ≠ q.1) → (∀ c ∈ pre, wsChar c = true) →
      parseMembers fuel acc
        (pre ++ (dumpMember lvl (k, v) ++ (dumpMembersRest lvl fs ++
          (nlIndent lvl2 ++ ('\x7d' :: rest))))) =
        some (acc ++ (k, v) :: fs, rest)) := by
  intro fuel
  induction fuel with
  | zero =>
    refine ⟨?_, ?_, ?_⟩
    · intro v lvl rest h _ _
      have := need_pos v
      omega
    · intro x xs lvl lvl2 acc pre rest h _ _ _
      rw [needL_cons] at h
      omega
    · intro k v fs lvl lvl2 acc pre rest h _ _ _ _ _
      rw [needM_cons] at h
      omega
  | succ fuel ih =>
    obtain ⟨ih1, ih2, ih3⟩ := ih
    refine ⟨?_, ?_, ?_⟩
    · intro v lvl rest hneed hwf hrest
      cases v with
      | null => simp [dumpVal, parseValue, skipWs, wsChar]
      | bool b => cases b <;> simp [dumpVal, parseValue, skipWs, wsChar]
      | num n =>
        have hdi : dumpVal lvl (.num n) = dumpInt n := by simp [dumpVal]
        rw [hdi]
        by_cases hn : n < 0
        · have hd : dumpInt n = '-' :: natChars n.natAbs := by simp [dumpInt, hn]
          rw [hd]
          simp only [List.cons_append, parseValue]
          rw [skipWs_cons_not_ws '-' _ (by decide)]
          simp only []
          rw [if_neg (by decide : ¬('-' : Char) = 'n'), if_neg (by decide : ¬('-' : Char) = 't'),
            if_neg (by decide : ¬('-' : Char) = 'f'), if_neg (by decide : ¬('-' : Char) = '"'),
            if_neg (by decide : ¬('-' : Char) = '['), if_neg (by decide : ¬('-' : Char) = '\x7b'),
            if_pos (by trivial)]
          rw [parseNatNum_natChars n.natAbs rest hrest]
          have habs : -((n.natAbs : Nat) : Int) = n := by omega
          simp only []
          rw [habs]
        · have hd : dumpInt n = natChars n.natAbs := by simp [dumpInt, hn]
          rw [hd]
          obtain ⟨d, t, heq, hd10, _⟩ := natChars_head n.natAbs
          rw [heq]
          simp only [List.cons_append, parseValue]
          rw [skipWs_cons_not_ws (digitCh d) _ (digitCh_not_ws d hd10)]
          simp only []
          rw [if_neg (digitCh_ne d hd10 'n' (by decide)),
            if_neg (digitCh_ne d hd10 't' (by decide)),
            if_neg (digitCh_ne d hd10 'f' (by decide)),
            if_neg (digitCh_ne d hd10 '"' (by decide)),
            if_neg (digitCh_ne d hd10 '[' (by decide)),
            if_neg (digitCh_ne d hd10 '\x7b' (by decide)),
            if_neg (digitCh_ne d hd10 '-' (by decide))]
          rw [show digitCh d :: (t ++ rest) = natChars n.natAbs ++ rest from by rw [heq]; simp]
          rw [parseNatNum_natChars n.natAbs rest hrest]
          have habs : ((n.natAbs : Nat) : Int) = n := by omega
          simp only []
          rw [habs]
      | str s =>
        have hdv : dumpVal lvl (.str s) ++ rest = '"' :: (escList s.data ++ ('"' :: rest)) := by
          simp [dumpVal, dumpStr]
        rw [hdv]
        simp only [parseValue]
        rw [skipWs_cons_not_ws '"' _ (by decide)]
        simp only []
        rw [if_neg (by decide : ¬('"' : Char) = 'n'), if_neg (by decide : ¬('"' : Char) = 't'),
          if_neg (by decide : ¬('"' : Char) = 'f'), if_pos (by trivial)]
        rw [parseStringBody_escList s.data (escList s.data ++ ('"' :: rest)).length rest
          (by simp only [List.length_append, List.length_cons]; omega)]
      | arr xs =>
        cases xs with
        | nil => simp [dumpVal, parseValue, skipWs, wsChar]
        | cons x xs =>
          have hkx : keysOk x = true ∧ keysOkL xs = true := by
            have h0 : keysOk (.arr (x :: xs)) = (keysOk x && keysOkL xs) := by
              simp [keysOk, keysOkL]
            rw [h0] at hwf
            simpa using hwf
          have hne : needL (x :: xs) ≤ fuel := by
            have h0 : need (.arr (x :: xs)) = 1 + needL (x :: xs) := by simp [need]
            rw [h0] at hneed
            omega
          have hdv : dumpVal lvl (.arr (x :: xs)) ++ rest =
              '[' :: (nlIndent (lvl + 1) ++ (dumpVal (lvl + 1) x ++ (dumpElemsRest (lvl + 1) xs ++
                (nlIndent lvl ++ (']' :: rest))))) := by
            simp [dumpVal]
          rw [hdv]
          simp only [parseValue]
          rw [skipWs_cons_not_ws '[' _ (by decide)]
          simp only []
          rw [if_neg (by decide : ¬('[' : Char) = 'n'), if_neg (by decide : ¬('[' : Char) = 't'),
            if_neg (by decide : ¬('[' : Char) = 'f'), if_neg (by decide : ¬('[' : Char) = '"'),
            if_pos (by trivial)]
          rw [skipWs_nlIndent]
          obtain ⟨c0, t0, hx, hws0, hne0, _⟩ := dumpVal_head (lvl + 1) x
          rw [hx]
          simp only [List.cons_append]
          rw [skipWs_cons_not_ws c0 _ hws0]
          simp only []
          rw [if_neg hne0]
          rw [show c0 :: (t0 ++ (dumpElemsRest (lvl + 1) xs ++ (nlIndent lvl ++ (']' :: rest)))) =
            dumpVal (lvl + 1) x ++ (dumpElemsRest (lvl + 1) xs ++ (nlIndent lvl ++ (']' :: rest)))
            from by rw [hx]; simp]
          have happ := ih2 x xs (lvl + 1) lvl [] [] rest hne hkx.1 hkx.2
            (by intro c hc; cases hc)
          simp only [List.nil_append] at happ
          rw [happ]
      | obj fs =>
        cases fs with
        | nil => simp [dumpVal, parseValue, skipWs, wsChar]
        | cons f fs =>
          obtain ⟨k, v⟩ := f
          have hkd : noDupKeys ((k, v) :: fs) = true ∧ keysOk v = true ∧ keysOkF fs = true := by
            have h0 : keysOk (.obj ((k, v) :: fs)) =
                (noDupKeys ((k, v) :: fs) && (keysOk v && keysOkF fs)) := by
              simp [keysOk, keysOkF]
            rw [h0] at hwf
            simpa using hwf
          have hne : needM ((k, v) :: fs) ≤ fuel := by
            have h0 : need (.obj ((k, v) :: fs)) = 1 + needM ((k, v) :: fs) := by simp [need]
            rw [h0] at hneed
            omega
          have hdv : dumpVal lvl (.obj ((k, v) :: fs)) ++ rest =
              '\x7b' :: (nlIndent (lvl + 1) ++ (dumpMember (lvl + 1) (k, v) ++
                (dumpMembersRest (lvl + 1) fs ++ (nlIndent lvl ++ ('\x7d' :: rest))))) := by
            simp [dumpVal]
          rw [hdv]
          simp only [parseValue]
          rw [skipWs_cons_not_ws '\x7b' _ (by decide)]
          simp only []
          rw [if_neg (by decide : ¬('\x7b' : Char) = 'n'),
            if_neg (by decide : ¬('\x7b' : Char) = 't'),
            if_neg (by decide : ¬('\x7b' : Char) = 'f'),
            if_neg (by decide : ¬('\x7b' : Char) = '"'),
            if_neg (by decide : ¬('\x7b' : Char) = '['), if_pos (by trivial)]
          rw [skipWs_nlIndent]
          have hdm : dumpMember (lvl + 1) (k, v) ++
              (dumpMembersRest (lvl + 1) fs ++ (nlIndent lvl ++ ('\x7d' :: rest))) =
              '"' :: (escList k.data ++ ('"' :: (':' :: (' ' :: (dumpVal (lvl + 1) v ++
                (dumpMembersRest (lvl + 1) fs ++ (nlIndent lvl ++ ('\x7d' :: rest)))))))) := by
            simp [dumpMember, dumpStr]
          rw [hdm]
          rw [skipWs_cons_not_ws '"' _ (by decide)]
          simp only []
          rw [if_neg (by decide : ¬('"' : Char) = '\x7d')]
          rw [show ('"' :: (escList k.data ++ ('"' :: (':' :: (' ' :: (dumpVal (lvl + 1) v ++
            (dumpMembersRest (lvl + 1) fs ++ (nlIndent lvl ++ ('\x7d' :: rest))))))))) =
            [] ++ (dumpMember (lvl + 1) (k, v) ++ (dumpMembersRest (lvl + 1) fs ++
              (nlIndent lvl ++ ('\x7d' :: rest)))) from by rw [← hdm]; simp]
          have happ := ih3 k v fs (lvl + 1) lvl [] [] rest hne hkd.2.1 hkd.2.2 hkd.1
            (by intro p hp; cases hp) (by intro c hc; cases hc)
          rw [happ]
          simp
    · intro x xs lvl lvl2 acc pre rest hneed hkx hkxs hpre
      rw [needL_cons] at hneed
      have hmax := Nat.max_le.mp (by omega : max (need x) (needL xs) ≤ fuel)
      simp only [parseElems]
      rw [parseValue_ws fuel pre _ hpre]
      rw [ih1 x lvl _ hmax.1 hkx (digitHead_elemsRest lvl lvl2 xs (']' :: rest))]
      simp only []
      cases xs with
      | nil =>
        simp only [dumpElemsRest, List.nil_append]
        rw [skipWs_nlIndent]
        rw [skipWs_cons_not_ws ']' _ (by decide)]
        simp only []
        rw [if_neg (by decide : ¬(']' : Char) = ','), if_pos (by trivial)]
      | cons y ys =>
        have hky : keysOk y = true ∧ keysOkL ys = true := by
          have h0 : keysOkL (y :: ys) = (keysOk y && keysOkL ys) := by simp [keysOkL]
          rw [h0] at hkxs
          simpa using hkxs
        simp only [dumpElemsRest, List.cons_append, List.append_assoc]
        rw [skipWs_cons_not_ws ',' _ (by decide)]
        simp only []
        rw [if_pos (by trivial)]
        have happ := ih2 y ys lvl lvl2 (acc ++ [x]) (nlIndent lvl) rest hmax.2 hky.1 hky.2
          (nlIndent_ws lvl)
        rw [happ]
        simp
    · intro k v fs lvl lvl2 acc pre rest hneed hkv hkfs hnd hdisj hpre
      rw [needM_cons] at hneed
      have hmax := Nat.max_le.mp (by omega : max (need v) (needM fs) ≤ fuel)
      rw [parseMembers_ws (fuel + 1) acc pre _ hpre]
      have hdm : dumpMember lvl (k, v) ++ (dumpMembersRest lvl fs ++
          (nlIndent lvl2 ++ ('\x7d' :: rest))) =
          '"' :: (escList k.data ++ ('"' :: (':' :: (' ' :: (dumpVal lvl v ++
            (dumpMembersRest lvl fs ++ (nlIndent lvl2 ++ ('\x7d' :: rest)))))))) := by
        simp [dumpMember, dumpStr]
      rw [hdm]
      simp only [parseMembers]
      rw [skipWs_cons_not_ws '"' _ (by decide)]
      simp only []
      rw [if_pos (by trivial)]
      rw [parseStringBody_escList k.data _ _
        (by simp only [List.length_append, List.length_cons]; omega)]
      simp only []
      rw [skipWs_cons_not_ws ':' _ (by decide)]
      simp only []
      rw [if_pos (by trivial)]
      rw [show (' ' :: (dumpVal lvl v ++ (dumpMembersRest lvl fs ++
        (nlIndent lvl2 ++ ('\x7d' :: rest))))) = [' '] ++ (dumpVal lvl v ++
        (dumpMembersRest lvl fs ++ (nlIndent lvl2 ++ ('\x7d' :: rest)))) from rfl]
      rw [parseValue_ws fuel [' '] _ (by intro c hc; simp at hc; subst hc; rfl)]
      rw [ih1 v lvl _ hmax.1 hkv (digitHead_membersRest lvl lvl2 fs ('\x7d' :: rest))]
      simp only []
      have hkstr : String.mk k.data = k := rfl
      have hins : insertKey acc (String.mk k.data) v = acc ++ [(k, v)] := by
        rw [hkstr]
        exact insertKey_not_mem acc k v
          (fun p hp => hdisj p hp (k, v) (List.mem_cons_self _ _))
      cases fs with
      | nil =>
        simp only [dumpMembersRest, List.nil_append]
        rw [skipWs_nlIndent]
        rw [skipWs_cons_not_ws '\x7d' _ (by decide)]
        simp only []
        rw [if_neg (by decide : ¬('\x7d' : Char) = ','), if_pos (by trivial)]
        rw [hins]
      | cons g fs2 =>
        obtain ⟨k2, v2⟩ := g
        have hk2 : keysOk v2 = true ∧ keysOkF fs2 = true := by
          have h0 : keysOkF ((k2, v2) :: fs2) = (keysOk v2 && keysOkF fs2) := by simp [keysOkF]
          rw [h0] at hkfs
          simpa using hkfs
        have hnd2 := (noDupKeys_cons k v ((k2, v2) :: fs2)).mp hnd
        simp only [dumpMembersRest, List.cons_append, List.append_assoc]
        rw [skipWs_cons_not_ws ',' _ (by decide)]
        simp only []
        rw [if_pos (by trivial)]
        rw [hins]
        have hdisj2 : ∀ p ∈ acc ++ [(k, v)], ∀ q ∈ (k2, v2) :: fs2, p.1 ≠ q.1 := by
          intro p hp q hq
          rcases List.mem_append.mp hp with hp | hp
          · exact hdisj p hp q (List.mem_cons_of_mem _ hq)
          · have hpk : p = (k, v) := by simpa using hp
            subst hpk
            exact (hnd2.1 q hq).symm
        have happ := ih3 k2 v2 fs2 lvl lvl2 (acc ++ [(k, v)]) (nlIndent lvl) rest hmax.2
          hk2.1 hk2.2 hnd2.2 hdisj2 (nlIndent_ws lvl)
        rw [happ]
        simp

/-! ## Fuel bound: the printed length dominates the needed fuel -/

theorem natChars_len_pos (n : Nat) : 1 ≤ (natChars n).length := by
  obtain ⟨d, t, heq, _, _⟩ := natChars_head n
  rw [heq]
  simp

theorem dumpInt_len_pos (n : Int) : 1 ≤ (dumpInt n).length := by
  by_cases hn : n < 0
  · simp [dumpInt, hn]
  · simp only [dumpInt, hn, if_neg, not_false_iff]
    exact natChars_len_pos n.natAbs

theorem need_le_dump_aux : ∀ n : Nat,
    (∀ v lvl, sizeOf v ≤ n → need v ≤ (dumpVal lvl v).length) ∧
    (∀ xs lvl, sizeOf xs ≤ n → needL xs ≤ (dumpElemsRest lvl xs).length + 1) ∧
    (∀ fs lvl, sizeOf fs ≤ n → needM fs ≤ (dumpMembersRest lvl fs).length + 1) := by
  intro n
  induction n with
  | zero =>
    refine ⟨?_, ?_, ?_⟩
    · intro v lvl h
      have : 1 ≤ sizeOf v := by cases v <;> simp <;> omega
      omega
    · intro xs lvl h
      have : 1 ≤ sizeOf xs := by cases xs <;> simp <;> omega
      omega
    · intro fs lvl h
      have : 1 ≤ sizeOf fs := by cases fs <;> simp <;> omega
      omega
  | succ n ih =>
    obtain ⟨ih1, ih2, ih3⟩ := ih
    refine ⟨?_, ?_, ?_⟩
    · intro v lvl h
      cases v with
      | null => simp [need, dumpVal]
      | bool b => cases b <;> simp [need, dumpVal]
      | num m =>
        have := dumpInt_len_pos m
        simp only [need, dumpVal]
        omega
      | str s => simp [need, dumpVal, dumpStr]
      | arr xs =>
        cases xs with
        | nil => simp [need, needL, dumpVal]
        | cons x xs =>
          have hx : sizeOf x ≤ n := by
            have := @List.cons.sizeOf_spec Json _ x xs
            have := @Json.arr.sizeOf_spec (x :: xs)
            omega
          have hxs : sizeOf xs ≤ n := by
            have := @List.cons.sizeOf_spec Json _ x xs
            have := @Json.arr.sizeOf_spec (x :: xs)
            omega
          have h1 := ih1 x (lvl + 1) hx
          have h2 := ih2 xs (lvl + 1) hxs
          simp only [need, needL, dumpVal, nlIndent, List.length_cons, List.length_append,
            List.length_replicate]
          omega
      | obj fs =>
        cases fs with
        | nil => simp [need, needM, dumpVal]
        | cons f fs =>
          obtain ⟨k, v⟩ := f
          have hv : sizeOf v ≤ n := by
            have := @List.cons.sizeOf_spec (String × Json) _ (k, v) fs
            have := @Json.obj.sizeOf_spec ((k, v) :: fs)
            have := @Prod.mk.sizeOf_spec String Json _ _ k v
            omega
          have hfs : sizeOf fs ≤ n := by
            have := @List.cons.sizeOf_spec (String × Json) _ (k, v) fs
            have := @Json.obj.sizeOf_spec ((k, v) :: fs)
            omega
          have h1 := ih1 v (lvl + 1) hv
          have h3 := ih3 fs (lvl + 1) hfs
          simp only [need, needM, dumpVal, dumpMember, nlIndent, List.length_cons,
            List.length_append, List.length_replicate]
          omega
    · intro xs lvl h
      cases xs with
      | nil => simp [needL, dumpElemsRest]
      | cons x xs =>
        have hx : sizeOf x ≤ n := by
          have := @List.cons.sizeOf_spec Json _ x xs
          omega
        have hxs : sizeOf xs ≤ n := by
          have := @List.cons.sizeOf_spec Json _ x xs
          omega
        have h1 := ih1 x lvl hx
        have h2 := ih2 xs lvl hxs
        simp only [needL, dumpElemsRest, nlIndent, List.length_cons, List.length_append,
          List.length_replicate]
        omega
    · intro fs lvl h
      cases fs with
      | nil => simp [needM, dumpMembersRest]
      | cons f fs =>
        obtain ⟨k, v⟩ := f
        have hv : sizeOf v ≤ n := by
          have := @List.cons.sizeOf_spec (String × Json) _ (k, v) fs
          have := @Prod.mk.sizeOf_spec String Json _ _ k v
          omega
        have hfs : sizeOf fs ≤ n := by
          have := @List.cons.sizeOf_spec (String × Json) _ (k, v) fs
          omega
        have h1 := ih1 v lvl hv
        have h3 := ih3 fs lvl hfs
        simp only [needM, dumpMembersRest, dumpMember, nlIndent, List.length_cons,
          List.length_append, List.length_replicate]
        omega

theorem need_le_dump (v : Json) (lvl : Nat) : need v ≤ (dumpVal lvl v).length :=
  (need_le_dump_aux (sizeOf v)).1 v lvl le_rfl

/-! ## The decoder only produces values with duplicate-free keys -/

theorem keysOkL_append (a b : List Json) :
    keysOkL (a ++ b) = (keysOkL a && keysOkL b) := by
  induction a with
  | nil => simp [keysOkL]
  | cons x xs ih => simp [keysOkL, ih, Bool.and_assoc]

theorem any_insertKey (rest : List (String × Json)) (k : String) (v : Json) (p : String) :
    (insertKey rest k v).any (fun q => q.1 == p) =
      (rest.any (fun q => q.1 == p) || (k == p)) := by
  induction rest with
  | nil => simp [insertKey]
  | cons q t ih =>
    obtain ⟨k1, v1⟩ := q
    by_cases hk : k1 = k
    · subst hk
      simp only [insertKey, if_pos rfl, List.any_cons]
      cases hkp : (k1 == p) <;> cases ht : (t.any fun q => q.1 == p) <;> simp [hkp, ht]
    · simp only [insertKey, if_neg hk, List.any_cons, ih]
      cases hkp : (k1 == p) <;> cases ht : (t.any fun q => q.1 == p) <;>
        cases hkk : (k == p) <;> simp [hkp, ht, hkk]

theorem noDupKeys_insertKey (acc : List (String × Json)) (k : String) (v : Json)
    (h : noDupKeys acc = true) : noDupKeys (insertKey acc k v) = true := by
  induction acc with
  | nil => simp [insertKey, noDupKeys]
  | cons q t ih =>
    obtain ⟨k1, v1⟩ := q
    simp only [noDupKeys, Bool.and_eq_true, Bool.not_eq_true'] at h
    by_cases hk : k1 = k
    · subst hk
      simp only [insertKey, if_pos rfl, noDupKeys, Bool.and_eq_true, Bool.not_eq_true']
      exact h
    · simp only [insertKey, if_neg hk, noDupKeys, Bool.and_eq_true, Bool.not_eq_true']
      constructor
      · rw [any_insertKey]
        simp only [Bool.or_eq_false_iff]
        refine ⟨h.1, ?_⟩
        simp only [beq_eq_false_iff_ne, ne_eq]
        exact fun e => hk e.symm
      · exact ih h.2

theorem keysOkF_insertKey (acc : List (String × Json)) (k : String) (v : Json)
    (ha : keysOkF acc = true) (hv : keysOk v = true) :
    keysOkF (insertKey acc k v) = true := by
  induction acc with
  | nil => simp [insertKey, keysOkF, keysOkL, hv]
  | cons q t ih =>
    obtain ⟨k1, v1⟩ := q
    have ha' : keysOk v1 = true ∧ keysOkF t = true := by
      have h0 : keysOkF ((k1, v1) :: t) = (keysOk v1 && keysOkF t) := by simp [keysOkF]
      rw [h0] at ha
      simpa using ha
    by_cases hk : k1 = k
    · subst hk
      have h0 : keysOkF ((k1, v) :: t) = (keysOk v && keysOkF t) := by simp [keysOkF]
      simp only [insertKey]
      rw [if_pos trivial, h0]
      simp [hv, ha'.2]
    · have h0 : keysOkF ((k1, v1) :: insertKey t k v) =
          (keysOk v1 && keysOkF (insertKey t k v)) := by simp [keysOkF]
      simp only [insertKey, if_neg hk, h0]
      simp [ha'.1, ih ha'.2]

theorem parse_keysOk_aux : ∀ fuel : Nat,
    (∀ input v rest, parseValue fuel input = some (v, rest) → keysOk v = true) ∧
    (∀ acc input l rest, parseElems fuel acc input = some (l, rest) →
      keysOkL acc = true → keysOkL l = true) ∧
    (∀ acc input fs rest, parseMembers fuel acc input = some (fs, rest) →
      noDupKeys acc = true → keysOkF acc = true →
      noDupKeys fs = true ∧ keysOkF fs = true) := by
  intro fuel
  induction fuel with
  | zero =>
    refine ⟨?_, ?_, ?_⟩
    · intro input v rest h
      simp [parseValue] at h
    · intro acc input l rest h
      simp [parseElems] at h
    · intro acc input fs rest h
      simp [parseMembers] at h
  | succ fuel ih =>
    obtain ⟨ih1, ih2, ih3⟩ := ih
    refine ⟨?_, ?_, ?_⟩
    · intro input v rest h
      simp only [parseValue] at h
      split at h
      · cases h
      · split_ifs at h with h1 h2 h3 h4 h5 h6 h7
        · split at h
          · cases h
            simp [keysOk]
          · cases h
        · split at h
          · cases h
            simp [keysOk]
          · cases h
        · split at h
          · cases h
            simp [keysOk]
          · cases h
        · split at h
          · cases h
            simp [keysOk]
          · cases h
        · split at h
          · cases h
          · split_ifs at h with h8
            · cases h
              simp [keysOk, keysOkL]
            · split at h
              · rename_i heq
                cases h
                have hl := ih2 [] _ _ _ heq (by simp [keysOkL])
                simpa [keysOk] using hl
              · cases h
        · split at h
          · cases h
          · split_ifs at h with h8
            · cases h
              simp [keysOk, noDupKeys, keysOkF]
            · split at h
              · rename_i heq
                cases h
                have hl := ih3 [] _ _ _ heq (by simp [noDupKeys]) (by simp [keysOkF])
                simp [keysOk, hl.1, hl.2]
              · cases h
        · split at h
          · cases h
            simp [keysOk]
          · cases h
        · split at h
          · cases h
            simp [keysOk]
          · cases h
    · intro acc input l rest h hacc
      simp only [parseElems] at h
      split at h
      · cases h
      · rename_i v rest1 heq
        have hv := ih1 input v rest1 heq
        split at h
        · cases h
        · split_ifs at h with h1 h2
          · exact ih2 (acc ++ [v]) _ l rest h (by simp [keysOkL_append, hacc, hv, keysOkL])
          · cases h
            simp [keysOkL_append, hacc, keysOkL, hv]
    · intro acc input fs rest h hnd hacc
      simp only [parseMembers] at h
      split at h
      · cases h
      · split_ifs at h with h1
        · split at h
          · cases h
          · rename_i heq
            split at h
            · cases h
            · split_ifs at h with h2
              · split at h
                · cases h
                · rename_i v rest4 heqv
                  have hv := ih1 _ v rest4 heqv
                  split at h
                  · cases h
                  · split_ifs at h with h3 h4
                    · exact ih3 _ _ fs rest h
                        (noDupKeys_insertKey acc _ v hnd)
                        (keysOkF_insertKey acc _ v hacc hv)
                    · cases h
                      exact ⟨noDupKeys_insertKey acc _ v hnd,
                        keysOkF_insertKey acc _ v hacc hv⟩

/-! ## Top-level document round-trip and reader facts -/

theorem decode_dumps_val (v : Json) (h : keysOk v = true) :
    decodeJson (dumps v) = some v := by
  have hfuel : need v ≤ (dumpVal 0 v).length + 1 := by
    have := need_le_dump v 0
    omega
  have hp := (parse_dump_aux ((dumpVal 0 v).length + 1)).1 v 0 [] hfuel h (by rfl)
  simp only [List.append_nil] at hp
  simp only [decodeJson, dumps]
  rw [hp]
  simp [skipWs]

theorem keysOkL_mem (objs : List Json) (h : keysOkL objs = true) :
    ∀ v ∈ objs, keysOk v = true := by
  induction objs with
  | nil => intro v hv; cases hv
  | cons x xs ih =>
    have h0 : keysOkL (x :: xs) = (keysOk x && keysOkL xs) := by simp [keysOkL]
    rw [h0] at h
    simp only [Bool.and_eq_true] at h
    intro v hv
    rcases List.mem_cons.mp hv with hv | hv
    · subst hv; exact h.1
    · exact ih h.2 v hv

theorem decodeJson_keysOk (s : String) (v : Json) (h : decodeJson s = some v) :
    keysOk v = true := by
  simp only [decodeJson] at h
  split at h
  · rename_i heq
    split_ifs at h
    cases h
    exact (parse_keysOk_aux _).1 _ _ _ heq
  · cases h

theorem readRecords_keysOk (lines : List String) (objs : List Json)
    (h : readRecords lines = .ok objs) : keysOkL objs = true := by
  induction lines generalizing objs with
  | nil =>
    simp only [readRecords] at h
    cases h
    rfl
  | cons l ls ih =>
    simp only [readRecords] at h
    split_ifs at h with hb
    · exact ih objs h
    · split at h
      · rename_i v heq
        cases hr : readRecords ls with
        | error e => rw [hr] at h; cases h
        | ok objs' =>
          rw [hr] at h
          simp only [Except.map] at h
          cases h
          have h0 : keysOkL (v :: objs') = (keysOk v && keysOkL objs') := by simp [keysOkL]
          rw [h0]
          simp [decodeJson_keysOk l v (by assumption), ih objs' hr]
      · cases h

theorem readRecords_forall2 (lines : List String) (objs : List Json)
    (h : readRecords lines = .ok objs) :
    List.Forall₂ (fun l v => decodeJson l = some v)
      (lines.filter (fun l => !isBlank l)) objs := by
  induction lines generalizing objs with
  | nil =>
    simp only [readRecords] at h
    cases h
    simp
  | cons l ls ih =>
    simp only [readRecords] at h
    split_ifs at h with hb
    · have hfil : (l :: ls).filter (fun l => !isBlank l) = ls.filter (fun l => !isBlank l) := by
        simp [List.filter, hb]
      rw [hfil]
      exact ih objs h
    · have hbf : isBlank l = false := by
        cases hbl : isBlank l
        · rfl
        · exact absurd hbl hb
      have hfil : (l :: ls).filter (fun l => !isBlank l) =
          l :: ls.filter (fun l => !isBlank l) := by
        simp [List.filter, hbf]
      rw [hfil]
      split at h
      · rename_i v heq
        cases hr : readRecords ls with
        | error e => rw [hr] at h; cases h
        | ok objs' =>
          rw [hr] at h
          simp only [Except.map] at h
          cases h
          exact List.Forall₂.cons heq (ih objs' hr)
      · cases h

theorem readRecords_filter (lines : List String) :
    readRecords (lines.filter (fun l => !isBlank l)) = readRecords lines := by
  induction lines with
  | nil => rfl
  | cons l ls ih =>
    by_cases hb : isBlank l = true
    · have hfil : (l :: ls).filter (fun l => !isBlank l) = ls.filter (fun l => !isBlank l) := by
        simp [List.filter, hb]
      rw [hfil, ih]
      simp [readRecords, hb]
    · have hbf : isBlank l = false := by
        cases hbl : isBlank l
        · rfl
        · exact absurd hbl hb
      have hfil : (l :: ls).filter (fun l => !isBlank l) =
          l :: ls.filter (fun l => !isBlank l) := by
        simp [List.filter, hbf]
      rw [hfil]
      simp only [readRecords, hbf, Bool.false_eq_true, if_neg, not_false_iff, ih]

theorem readRecords_error_of_bad (lines : List String)
    (h : ∃ l ∈ lines, isBlank l = false ∧ decodeJson l = none) :
    ∃ e, readRecords lines = .error e := by
  induction lines with
  | nil => obtain ⟨l, hl, _⟩ := h; cases hl
  | cons l ls ih =>
    obtain ⟨l0, hl0, hbad⟩ := h
    rcases List.mem_cons.mp hl0 with hl0 | hl0
    · subst hl0
      refine ⟨"ParseError", ?_⟩
      simp [readRecords, hbad.1, hbad.2]
    · by_cases hb : isBlank l = true
      · obtain ⟨e, he⟩ := ih ⟨l0, hl0, hbad⟩
        exact ⟨e, by simp [readRecords, hb, he]⟩
      · have hbf : isBlank l = false := by
          cases hbl : isBlank l
          · rfl
          · exact absurd hbl hb
        cases hd : decodeJson l with
        | none => exact ⟨"ParseError", by simp [readRecords, hbf, hd]⟩
        | some v =>
          obtain ⟨e, he⟩ := ih ⟨l0, hl0, hbad⟩
          refine ⟨e, ?_⟩
          simp [readRecords, hbf, hd, he, Except.map]

theorem readRecords_blank (lines : List String) (h : ∀ l ∈ lines, isBlank l = true) :
    readRecords lines = .ok [] := by
  induction lines with
  | nil => rfl
  | cons l ls ih =>
    have hb := h l (List.mem_cons_self _ _)
    simp only [readRecords, hb, if_pos]
    exact ih (fun l' hl' => h l' (List.mem_cons_of_mem _ hl'))

theorem dumps_nil : dumps (.arr []) = "[]" := by
  simp [dumps, dumpVal]

theorem runProg_output_some (argv : List String) (lines : List String) (out : String)
    (h : (runProg argv (some lines)).output = some out) :
    ∃ objs, argv.length = 3 ∧ readRecords lines = .ok objs ∧ out = dumps (.arr objs) := by
  by_cases h3 : argv.length = 3
  · simp only [runProg, h3, ne_eq, not_true_eq_false, if_neg, not_false_iff] at h
    split at h
    · cases h
    · rename_i objs heq
      simp only at h
      cases h
      exact ⟨objs, h3, heq, rfl⟩
  · simp [runProg, h3] at h

/-! ## The claims -/

/-- C1: for every well-formed line-delimited JSON input with N non-blank
lines, the converted output decodes to a JSON array with exactly N
elements. -/
theorem convert_roundtrip_cardinality (argv lines : List String) (out : String)
    (h : (runProg argv (some lines)).output = some out) :
    ∃ objs : List Json, decodeJson out = some (.arr objs) ∧
      objs.length = (lines.filter (fun l => !isBlank l)).length := by
  obtain ⟨objs, h3, hok, rfl⟩ := runProg_output_some argv lines out h
  have hko := readRecords_keysOk lines objs hok
  refine ⟨objs, decode_dumps_val (.arr objs) (by simpa [keysOk] using hko), ?_⟩
  exact ((readRecords_forall2 lines objs hok).length_eq).symm

theorem convert_roundtrip_cardinality_witness :
    (runProg ["prep-json.py", "in.jsonl", "out.json"]
        (some ["1", "", "[2, 3]"])).output =
      some (dumps (.arr [.num 1, .arr [.num 2, .num 3]])) ∧
    ∃ objs : List Json,
      decodeJson (dumps (.arr [.num 1, .arr [.num 2, .num 3]])) = some (.arr objs) ∧
      objs.length =
        ((["1", "", "[2, 3]"] : List String).filter (fun l => !isBlank l)).length :=
  ⟨rfl, convert_roundtrip_cardinality ["prep-json.py", "in.jsonl", "out.json"]
    ["1", "", "[2, 3]"] (dumps (.arr [.num 1, .arr [.num 2, .num 3]])) rfl⟩

/-- C2: the i-th element of the decoded output array is the JSON value
decoded from the i-th non-blank input line. -/
theorem convert_order_preservation (argv lines : List String) (out : String)
    (objs : List Json)
    (h : (runProg argv (some lines)).output = some out)
    (hdec : decodeJson out = some (.arr objs)) :
    ∀ (i : Nat) (l : String) (v : Json),
      (lines.filter (fun l => !isBlank l))[i]? = some l → objs[i]? = some v →
      decodeJson l = some v := by
  intro i l v hl hv
  obtain ⟨objs0, h3, hok, rfl⟩ := runProg_output_some argv lines out h
  have hko := readRecords_keysOk lines objs0 hok
  have hdd := decode_dumps_val (.arr objs0) (by simpa [keysOk] using hko)
  rw [hdd] at hdec
  have hobjs : objs = objs0 := by
    have := Option.some.inj hdec
    have := Json.arr.inj this
    exact this.symm
  subst hobjs
  have hf := readRecords_forall2 lines objs hok
  rw [List.forall₂_iff_get] at hf
  obtain ⟨hlen, hget⟩ := hf
  rw [List.getElem?_eq_some] at hl hv
  obtain ⟨hil, hl⟩ := hl
  obtain ⟨hiv, hv⟩ := hv
  have := hget i hil hiv
  simp only [List.get_eq_getElem] at this
  rw [hl, hv] at this
  exact this

theorem convert_order_preservation_witness :
    (runProg ["prep-json.py", "in.jsonl", "out.json"] (some ["7", ""])).output =
      some (dumps (.arr [.num 7])) ∧
    decodeJson (dumps (.arr [.num 7])) = some (.arr [.num 7]) ∧
    ((["7", ""] : List String).filter (fun l => !isBlank l))[0]? = some "7" ∧
    ([Json.num 7] : List Json)[0]? = some (Json.num 7) ∧
    decodeJson "7" = some (.num 7) :=
  ⟨rfl, decode_dumps_val (.arr [.num 7]) (by simp [keysOk, keysOkL]), rfl, rfl,
    convert_order_preservation ["prep-json.py", "in.jsonl", "out.json"] ["7", ""]
      (dumps (.arr [.num 7])) [.num 7] rfl
      (decode_dumps_val (.arr [.num 7]) (by simp [keysOk, keysOkL])) 0 "7" (.num 7) rfl rfl⟩

/-- C3: an input with blank lines between valid JSON lines produces
exactly the same run outcome as the same input with the blank lines
removed. -/
theorem convert_blank_line_tolerance (argv lines : List String) :
    runProg argv (some lines) = runProg argv (some (lines.filter (fun l => !isBlank l))) := by
  simp only [runProg, readRecords_filter]

/-- C4: after decoding the written output document, the array elements
are exactly the values decoded from the non-blank input lines, and
serializing then re-parsing each record is the identity. -/
theorem convert_value_fidelity (argv lines : List String) (out : String)
    (h : (runProg argv (some lines)).output = some out) :
    ∃ objs : List Json, readRecords lines = .ok objs ∧
      decodeJson out = some (.arr objs) ∧
      List.Forall₂ (fun l v => decodeJson l = some v)
        (lines.filter (fun l => !isBlank l)) objs ∧
      ∀ v ∈ objs, decodeJson (dumps v) = some v := by
  obtain ⟨objs, h3, hok, rfl⟩ := runProg_output_some argv lines out h
  have hko := readRecords_keysOk lines objs hok
  refine ⟨objs, hok, decode_dumps_val (.arr objs) (by simpa [keysOk] using hko),
    readRecords_forall2 lines objs hok, ?_⟩
  intro v hv
  exact decode_dumps_val v (keysOkL_mem objs hko v hv)

theorem convert_value_fidelity_witness :
    (runProg ["prep-json.py", "in.jsonl", "out.json"] (some ["[1, \"a\"]"])).output =
      some (dumps (.arr [.arr [.num 1, .str "a"]])) ∧
    ∃ objs : List Json, readRecords ["[1, \"a\"]"] = .ok objs ∧
      decodeJson (dumps (.arr [.arr [.num 1, .str "a"]])) = some (.arr objs) ∧
      List.Forall₂ (fun l v => decodeJson l = some v)
        ((["[1, \"a\"]"] : List String).filter (fun l => !isBlank l)) objs ∧
      ∀ v ∈ objs, decodeJson (dumps v) = some v :=
  ⟨rfl, convert_value_fidelity ["prep-json.py", "in.jsonl", "out.json"] ["[1, \"a\"]"]
    (dumps (.arr [.arr [.num 1, .str "a"]])) rfl⟩

/-- C5: with an argument count other than exactly two positional
arguments besides the program name, the program prints the usage message
to standard output, exits with status 1, and never opens the output
file. -/
theorem convert_arg_count_guard (argv : List String) (input : Option (List String))
    (h : argv.length ≠ 3) :
    runProg argv input = ⟨1, [usageMsg], none⟩ := by
  simp [runProg, h]

theorem convert_arg_count_guard_witness :
    (["prep-json.py", "onlyone"] : List String).length ≠ 3 ∧
    runProg ["prep-json.py", "onlyone"] (some ["1"]) = ⟨1, [usageMsg], none⟩ :=
  ⟨by decide, convert_arg_count_guard _ _ (by decide)⟩

/-- C6: an input containing a non-blank line that is not valid JSON makes
the run fail: exit status 1, nothing printed to standard output (so no
success message), and the output file never opened. -/
theorem convert_malformed_rejection (argv lines : List String)
    (h3 : argv.length = 3)
    (hbad : ∃ l ∈ lines, isBlank l = false ∧ decodeJson l = none) :
    (runProg argv (some lines)).exitCode = 1 ∧
    (runProg argv (some lines)).stdout = [] ∧
    (runProg argv (some lines)).output = none := by
  obtain ⟨e, he⟩ := readRecords_error_of_bad lines hbad
  simp [runProg, h3, he]

theorem convert_malformed_rejection_witness :
    (["prep-json.py", "in.jsonl", "out.json"] : List String).length = 3 ∧
    (∃ l ∈ (["1", "["] : List String), isBlank l = false ∧ decodeJson l = none) ∧
    (runProg ["prep-json.py", "in.jsonl", "out.json"] (some ["1", "["])).exitCode = 1 ∧
    (runProg ["prep-json.py", "in.jsonl", "out.json"] (some ["1", "["])).stdout = [] ∧
    (runProg ["prep-json.py", "in.jsonl", "out.json"] (some ["1", "["])).output = none :=
  ⟨rfl, ⟨"[", by simp, rfl, rfl⟩,
    convert_malformed_rejection _ _ rfl ⟨"[", by simp, rfl, rfl⟩⟩

/-- C7: on a successful run the output file receives the full ordered
record sequence serialized as one JSON array: the empty array is `[]`,
and a non-empty array opens a bracket and indents every element by four
spaces per nesting level (`nlIndent`). -/
theorem convert_output_serialization (argv lines : List String) (objs : List Json)
    (h3 : argv.length = 3) (hok : readRecords lines = .ok objs) :
    (runProg argv (some lines)).output = some (dumps (.arr objs)) ∧
    dumps (.arr objs) = (match objs with
      | [] => String.mk ['[', ']']
      | x :: xs => String.mk ('[' :: (nlIndent 1 ++ dumpVal 1 x ++ dumpElemsRest 1 xs ++
          nlIndent 0 ++ [']']))) := by
  constructor
  · simp [runProg, h3, hok]
  · cases objs with
    | nil => simp [dumps, dumpVal]
    | cons x xs => simp [dumps, dumpVal]

theorem convert_output_serialization_witness :
    (["prep-json.py", "in.jsonl", "out.json"] : List String).length = 3 ∧
    readRecords ["1"] = .ok [Json.num 1] ∧
    (runProg ["prep-json.py", "in.jsonl", "out.json"] (some ["1"])).output =
      some (dumps (.arr [.num 1])) ∧
    dumps (.arr [.num 1]) = (match ([Json.num 1] : List Json) with
      | [] => String.mk ['[', ']']
      | x :: xs => String.mk ('[' :: (nlIndent 1 ++ dumpVal 1 x ++ dumpElemsRest 1 xs ++
          nlIndent 0 ++ [']']))) :=
  ⟨rfl, rfl, convert_output_serialization ["prep-json.py", "in.jsonl", "out.json"] ["1"]
    [.num 1] rfl rfl⟩

/-- C8: a successful run with input path `i` and output path `o` exits
with status 0 and prints exactly the confirmation message `Combined JSON
objects from i into o`. -/
theorem convert_success_message (p i o : String) (lines : List String) (objs : List Json)
    (hok : readRecords lines = .ok objs) :
    runProg [p, i, o] (some lines) =
      ⟨0, ["Combined JSON objects from " ++ i ++ " into " ++ o], some (dumps (.arr objs))⟩ := by
  simp [runProg, hok, successMsg]

theorem convert_success_message_witness :
    readRecords ["true"] = .ok [Json.bool true] ∧
    runProg ["prep-json.py", "in.jsonl", "out.json"] (some ["true"]) =
      ⟨0, ["Combined JSON objects from " ++ "in.jsonl" ++ " into " ++ "out.json"],
        some (dumps (.arr [.bool true]))⟩ :=
  ⟨rfl, convert_success_message "prep-json.py" "in.jsonl" "out.json" _ _ rfl⟩

/-- C9: a run that fails while reading or decoding the input (unreadable
input file, or some line not valid JSON) never opens the output file:
the whole input is decoded before the output path is touched. -/
theorem convert_no_write_on_read_error (argv : List String) (input : Option (List String))
    (h : input = none ∨ ∃ lines e, input = some lines ∧ readRecords lines = .error e) :
    (runProg argv input).output = none := by
  by_cases h3 : argv.length = 3
  · rcases h with h | ⟨lines, e, rfl, he⟩
    · subst h
      simp [runProg, h3]
    · simp [runProg, h3, he]
  · simp [runProg, h3]

theorem convert_no_write_on_read_error_witness :
    ((none : Option (List String)) = none ∨
      ∃ lines e, (none : Option (List String)) = some lines ∧
        readRecords lines = .error e) ∧
    (runProg ["prep-json.py", "in.jsonl", "out.json"] none).output = none :=
  ⟨Or.inl rfl, convert_no_write_on_read_error _ _ (Or.inl rfl)⟩

/-- C10: an input with no non-blank lines converts successfully: the
output document is the empty JSON array `[]`, the confirmation message is
printed, and the exit status is 0. -/
theorem convert_empty_input (argv lines : List String) (h3 : argv.length = 3)
    (hblank : ∀ l ∈ lines, isBlank l = true) :
    runProg argv (some lines) =
      ⟨0, [successMsg (argv.getD 1 "") (argv.getD 2 "")], some "[]"⟩ := by
  have hok := readRecords_blank lines hblank
  rw [show ("[]" : String) = dumps (.arr []) from dumps_nil.symm]
  simp [runProg, h3, hok]

theorem convert_empty_input_witness :
    (["prep-json.py", "in.jsonl", "out.json"] : List String).length = 3 ∧
    (∀ l ∈ ([] : List String), isBlank l = true) ∧
    runProg ["prep-json.py", "in.jsonl", "out.json"] (some []) =
      ⟨0, [successMsg "in.jsonl" "out.json"], some "[]"⟩ :=
  ⟨rfl, by simp, convert_empty_input ["prep-json.py", "in.jsonl", "out.json"] [] rfl
    (by simp)⟩
